import Mathlib

/-!
Verification of the mediawiki-sample repository: a shallow embedding of
`chunk_extractor.py` and `parallel_chunk_extractor.py` in Lean 4, with
theorems settling the frozen claims about the spec.

Python strings are modelled as `List Char` (Python strings are sequences of
code points, as is `List Char`); UTF-8 encoded byte length is modelled with
`Char.utf8Size`.  Fallible computations (Python exceptions) are modelled
with `Except`.
-/

namespace MediawikiSample

/-- Python `len(s.encode("utf-8"))`: the UTF-8 encoded byte length of a string. -/
def utf8Len (s : List Char) : Nat := (s.map Char.utf8Size).sum

/-- Python `str` whitespace test restricted to the ASCII whitespace
characters recognised by `str.split()` / `str.strip()`:
space, tab, newline, carriage return, vertical tab, form feed. -/
def pyIsSpace (c : Char) : Bool :=
  c == ' ' || c == '\t' || c == '\n' || c == '\r' ||
  c == Char.ofNat 11 || c == Char.ofNat 12

/-- Python `s.strip()`: remove leading and trailing whitespace. -/
def pyStrip (s : List Char) : List Char :=
  (((s.dropWhile pyIsSpace).reverse).dropWhile pyIsSpace).reverse

/-- Split a list at every element satisfying `p`, dropping the matched
elements and keeping (possibly empty) parts between them. -/
def splitEvery (p : Char → Bool) : List Char → List (List Char)
  | [] => [[]]
  | c :: rest =>
    if p c then [] :: splitEvery p rest
    else
      match splitEvery p rest with
      | [] => [[c]]
      | t :: ts => (c :: t) :: ts

/-- Python `s.split()` with no argument: split on runs of whitespace and
drop empty parts. -/
def pySplitWs (s : List Char) : List (List Char) :=
  (splitEvery pyIsSpace s).filter (fun t => !t.isEmpty)

/-- The two-character sentence delimiter `". "` used by `chunk_text`. -/
def dotSpace : List Char := ['.', ' ']

/-- Python `text.split(". ")`: split on the exact two-character sequence
"period space", scanning left to right. -/
def splitDotSpace : List Char → List (List Char)
  | [] => [[]]
  | [c] => [[c]]
  | c :: d :: rest =>
    if c = '.' ∧ d = ' ' then [] :: splitDotSpace rest
    else
      match splitDotSpace (d :: rest) with
      | [] => [[c]]
      | t :: ts => (c :: t) :: ts

/-- State threaded through `chunk_text`'s loops: the completed chunks
(`chunks` in the source) and the current buffer (`current_chunk`). -/
abbrev ChunkSt := List (List Char) × List Char

/-- One iteration of the word-level fallback loop of `chunk_text`
(`for word in words:` body, source lines 42-49); the tested
`test_chunk` is `current_chunk + word + " "`. -/
def wordStep (max_bytes : Nat) (st : ChunkSt) (word : List Char) : ChunkSt :=
  if utf8Len (st.2 ++ word ++ [' ']) ≤ max_bytes then (st.1, st.2 ++ word ++ [' '])
  else if st.2 ≠ [] then (st.1 ++ [pyStrip st.2], word ++ [' '])
  else (st.1, word ++ [' '])

/-- The body of `chunk_text`'s sentence loop once the sentence-with-period
`swp` has been computed (source lines 31-49): try to extend the buffer
(`test_chunk` is `current_chunk + sentence_with_period`), otherwise flush
it, and if the buffer was empty fall back to word-level packing of the
raw `sentence`. -/
def sentenceBody (max_bytes : Nat) (st : ChunkSt) (sentence swp : List Char) : ChunkSt :=
  if utf8Len (st.2 ++ swp) ≤ max_bytes then (st.1, st.2 ++ swp)
  else if st.2 ≠ [] then (st.1 ++ [pyStrip st.2], swp)
  else (pySplitWs sentence).foldl (wordStep max_bytes) st

/-- Source line 28: `sentence + ". " if sentence != sentences[-1] else sentence`
(source lines 28-30): the delimiter is reattached when the sentence's
text differs from the value of the last sentence. -/
def swpOf (last s : List Char) : List Char := if s ≠ last then s ++ dotSpace else s

/-- One iteration of `chunk_text`'s sentence loop (source lines 27-49). -/
def sentenceStep (max_bytes : Nat) (last : List Char) (st : ChunkSt) (s : List Char) : ChunkSt :=
  sentenceBody max_bytes st s (swpOf last s)

/-- The final flush of `chunk_text` (source lines 51-52): append the
stripped buffer when it is nonempty. -/
def chunkFinish (res : ChunkSt) : List (List Char) :=
  if res.2 = [] then res.1 else res.1 ++ [pyStrip res.2]

/-- The function `chunk_text(text, max_bytes)` from `chunk_extractor.py` lines 15-54. -/
def chunk_text (text : List Char) (max_bytes : Nat) : List (List Char) :=
  if utf8Len text ≤ max_bytes then [text]
  else
    chunkFinish ((splitDotSpace text).foldl
      (sentenceStep max_bytes ((splitDotSpace text).getLastD [])) ([], []))

/-- Variant of `chunk_text` that follows the spec's words for the
delimiter rule: the delimiter is reattached to every sentence except the
one in the last POSITION of the sequence (rather than to every sentence
whose text differs from the last sentence's text, as the source's value
comparison `sentence != sentences[-1]` does). -/
def chunk_text_posDelim (text : List Char) (max_bytes : Nat) : List (List Char) :=
  if utf8Len text ≤ max_bytes then [text]
  else
    chunkFinish (((splitDotSpace text).dropLast.map (fun s => (s, true))
        ++ [((splitDotSpace text).getLastD [], false)]).foldl
      (fun st p => sentenceBody max_bytes st p.1 (if p.2 then p.1 ++ dotSpace else p.1)) ([], []))

/-- A chunk containing no whitespace character at all (in particular, a
single token produced by `sentence.split()`). -/
def wsFreeL (t : List Char) : Prop := ∀ c ∈ t, pyIsSpace c = false

instance (t : List Char) : Decidable (wsFreeL t) :=
  inferInstanceAs (Decidable (∀ c ∈ t, pyIsSpace c = false))

/-- Chunk `c` is the stripped form of one single sentence candidate of `text`
(with the delimiter reattached exactly as `chunk_text` does). -/
def strippedSentence (text c : List Char) : Prop :=
  ∃ s ∈ splitDotSpace text, c = pyStrip (swpOf ((splitDotSpace text).getLastD []) s)

/-- Invariant of the chunks already flushed by `chunk_text`: each one is
within the byte budget, or whitespace-free, or the stripped form of one
single over-long sentence candidate. -/
def GoodChunkS (max_bytes : Nat) (last : List Char) (S : List (List Char)) (c : List Char) : Prop :=
  utf8Len c ≤ max_bytes ∨ wsFreeL c ∨ ∃ s ∈ S, c = pyStrip (swpOf last s)

/-- Invariant of `chunk_text`'s current buffer: within budget, or a whole
sentence candidate (with delimiter), or a single whitespace-free word
followed by the separating space. -/
def CurOk (max_bytes : Nat) (last : List Char) (S : List (List Char)) (cur : List Char) : Prop :=
  utf8Len cur ≤ max_bytes ∨ (∃ s ∈ S, cur = swpOf last s)
  ∨ ∃ w, w ≠ [] ∧ wsFreeL w ∧ cur = w ++ [' ']

/-- Combined loop invariant for `chunk_text`'s state. -/
def StOk (max_bytes : Nat) (last : List Char) (S : List (List Char)) (st : ChunkSt) : Prop :=
  (∀ c ∈ st.1, GoodChunkS max_bytes last S c) ∧ CurOk max_bytes last S st.2

/-! ### File discovery and ordering (`parallel_chunk_extractor.py`) -/

/-- Accumulate the decimal value of a digit string (`int` on digits). -/
def digitsVal (ds : List Char) : Nat := ds.foldl (fun n c => n * 10 + (c.toNat - 48)) 0

/-- Python `int(s)` on a string: strip whitespace, allow one optional sign,
then require a nonempty run of decimal digits; `none` models the
`ValueError` raised otherwise. -/
def pyInt (s : List Char) : Option Int :=
  match pyStrip s with
  | '-' :: ds => if ds ≠ [] ∧ ds.all Char.isDigit then some (-(digitsVal ds : Int)) else none
  | '+' :: ds => if ds ≠ [] ∧ ds.all Char.isDigit then some ((digitsVal ds : Int)) else none
  | ds => if ds ≠ [] ∧ ds.all Char.isDigit then some ((digitsVal ds : Int)) else none

/-- Python `pathlib.Path(name).stem`: the name without its final suffix; a suffix
exists when a `'.'` occurs that is neither the first nor the final
character of the name. -/
def pathStem (s : List Char) : List Char :=
  let ext := s.reverse.takeWhile (fun c => decide (c ≠ '.'))
  if ext.length < s.length ∧ ext.length ≠ 0 ∧ ext.length + 1 < s.length then
    s.take (s.length - ext.length - 1)
  else s

/-- The `int(parts[-1])` parse shared by `extract_part_number`
(lines 99-105) and the `start_from` filter (lines 176-183):
`Path(f).stem`, split on `"_"`, parse the last piece. -/
def partNumOpt (f : List Char) : Option Int :=
  pyInt (((pathStem f).splitOn '_').getLastD [])

/-- Source `extract_part_number` (lines 99-105): the sort key; parse failures
fall back to the default key `0` (the `except` branch). -/
def extract_part_number (f : List Char) : Int := (partNumOpt f).getD 0

/-- The comparison used to sort discovered files: ascending part number. -/
def keyLE (a b : List Char) : Prop := extract_part_number a ≤ extract_part_number b

instance : DecidableRel keyLE := fun a b =>
  inferInstanceAs (Decidable (extract_part_number a ≤ extract_part_number b))

instance : IsTotal (List Char) keyLE := ⟨fun a b => Int.le_total (extract_part_number a) (extract_part_number b)⟩

instance : IsTrans (List Char) keyLE := ⟨fun _ _ _ h h2 => Int.le_trans h h2⟩

/-- Source line 107, `parquet_files.sort(key=extract_part_number)`: Python's
stable ascending sort, modelled by stable insertion sort. -/
def sortParquetFiles (files : List (List Char)) : List (List Char) :=
  List.insertionSort keyLE files

/-- The keep-condition of the `start_from` loop body (lines 175-183):
parse the part number and keep the file when it is at least `start_from`;
a parse failure hits the `except ... continue` and drops the file. -/
def startFromKeep (start : Int) (f : List Char) : Bool :=
  match partNumOpt f with
  | some n => decide (start ≤ n)
  | none => false

/-- The `start_from` filtering step of `main` (lines 172-184): only
performed when `start_from > 1`, rebuilding the list with an append
per kept file. -/
def applyStartFrom (start : Int) (files : List (List Char)) : List (List Char) :=
  if 1 < start then
    files.foldl
      (fun acc f =>
        match partNumOpt f with
        | some k => if start ≤ k then acc ++ [f] else acc
        | none => acc)
      []
  else files

/-- The `max_files` truncation of `main` (lines 186-188):
`all_files[:max_files]` guarded by Python truthiness (`None` and `0`
leave the list unchanged; a negative bound slices from the end). -/
def applyMaxFiles (mf : Option Int) (files : List (List Char)) : List (List Char) :=
  match mf with
  | none => files
  | some n =>
    if n = 0 then files
    else if n < 0 then files.take (((files.length : Int) + n).toNat)
    else files.take n.toNat

/-- The composed filtering pipeline of `main`: `start_from` first
(lines 172-184), then `max_files` (lines 186-188). -/
def dispatchFiles (start : Int) (mf : Option Int) (files : List (List Char)) : List (List Char) :=
  applyMaxFiles mf (applyStartFrom start files)

/-! ### Progress checkpoint (`parallel_chunk_extractor.py` lines 255-264) -/

/-- Python numeric division: raises `ZeroDivisionError` on a zero
denominator, otherwise divides (exact rational arithmetic stands in for
the float arithmetic of the source). -/
def pyDiv (a b : ℚ) : Except String ℚ :=
  if b = 0 then Except.error "ZeroDivisionError" else Except.ok (a / b)

/-- The every-50-files progress computation (lines 256-264):
`rate = (successful + failed) / elapsed`, then
`eta = remaining / rate if rate > 0 else 0`. -/
def progressUpdate (done total : Nat) (elapsed : ℚ) : Except String ℚ :=
  match pyDiv (done : ℚ) elapsed with
  | Except.error e => Except.error e
  | Except.ok rate =>
    if 0 < rate then pyDiv ((total : ℚ) - (done : ℚ)) rate else Except.ok 0

/-! ### Per-unit outcomes and the final tally -/

/-- How the `subprocess.run` call inside one job unit can end: a process
exit (with code and stderr), the timeout, or any other exception. -/
inductive ExecOutcome where
  | exited (code : Int) (stderr : String)
  | timedOut
  | raised (msg : String)
  deriving DecidableEq

/-- Source `run_chunk_extractor` (lines 17-72) reduced to its outcome handling:
every way the unit's execution can end is converted into exactly one
`(filename, success, error_message)` triple. -/
def run_chunk_extractor (input_file : String) (outcome : ExecOutcome) : String × Bool × String :=
  match outcome with
  | ExecOutcome.exited code stderr =>
    if code = 0 then (input_file, true, "")
    else (input_file, false, "Exit code " ++ toString code ++ ": " ++ stderr)
  | ExecOutcome.timedOut => (input_file, false, "Timeout after 5 minutes")
  | ExecOutcome.raised msg => (input_file, false, msg)

/-- One step of the result loop of `main` (lines 242-253): bump the
`successful` or the `failed` counter. -/
def tallyStep (acc : Nat × Nat) (o : String × Bool × String) : Nat × Nat :=
  if o.2.1 then (acc.1 + 1, acc.2) else (acc.1, acc.2 + 1)

/-- The `(successful, failed)` counters after all completed jobs have
been consumed. -/
def tallyOutcomes (outcomes : List (String × Bool × String)) : Nat × Nat :=
  outcomes.foldl tallyStep (0, 0)

/-! ### Infobox extraction (`chunk_extractor.py`) -/

/-- One `infobox_data[param_name] = param_value` step of `process_article`
(line 133): Python dict assignment keeps the position of an existing key
and overwrites its value, otherwise appends the pair. -/
def dictInsert (d : List (String × String)) (kv : String × String) : List (String × String) :=
  if d.any (fun p => decide (p.1 = kv.1)) then
    d.map (fun p => if p.1 = kv.1 then (p.1, kv.2) else p)
  else d ++ [kv]

/-- Observing a Python dict at a key: the value associated with `k`
(the first — and only — entry with that key, since dict keys are
unique). -/
def dictGet (k : String) : List (String × String) → Option String
  | [] => none
  | p :: t => if p.1 = k then some p.2 else dictGet k t

/-- The parameter-collection loop of `process_article` (lines 128-133)
over the (already name/value-stripped) parameters of one Infobox
template. -/
def buildInfoboxDict (params : List (String × String)) : List (String × String) :=
  params.foldl dictInsert []

/-- The insertion loop of `extract_infobox` (lines 85-98): one
`INSERT INTO infobox_data` row is appended per parameter occurrence;
nothing is overwritten. -/
def infoboxRows (docid : Int) (params : List (String × String)) :
    List (Int × String × String) :=
  params.foldl (fun rows p => rows ++ [(docid, p.1, p.2)]) []

/-! ## Supporting lemmas -/

theorem tally_foldl (l : List (String × Bool × String)) (a b : Nat) :
    (l.foldl tallyStep (a, b)).1 + (l.foldl tallyStep (a, b)).2 = a + b + l.length := by
  induction l generalizing a b with
  | nil => simp
  | cons o t ih =>
    by_cases h : o.2.1 <;> simp [List.foldl_cons, tallyStep, h, ih] <;> omega

theorem dictGet_append (d e : List (String × String)) (k : String) :
    dictGet k (d ++ e) = (dictGet k d).or (dictGet k e) := by
  induction d with
  | nil => simp [dictGet]
  | cons q t ih => by_cases h : q.1 = k <;> simp [dictGet, h, ih]

theorem dictGet_eq_none (d : List (String × String)) (k : String)
    (h : ∀ q ∈ d, ¬ q.1 = k) : dictGet k d = none := by
  induction d with
  | nil => rfl
  | cons q t ih =>
    have hq := h q (List.mem_cons_self q t)
    simp only [dictGet, if_neg hq]
    exact ih (fun r hr => h r (List.mem_cons_of_mem q hr))

theorem dictGet_isSome_of_mem (d : List (String × String)) (k : String)
    (h : ∃ q ∈ d, q.1 = k) : ∃ v, dictGet k d = some v := by
  induction d with
  | nil => simp at h
  | cons q t ih =>
    by_cases hq : q.1 = k
    · exact ⟨q.2, by simp [dictGet, hq]⟩
    · rcases h with ⟨r, hr, hrk⟩
      rcases List.mem_cons.mp hr with rfl | hrt
      · exact absurd hrk hq
      · rcases ih ⟨r, hrt, hrk⟩ with ⟨v, hv⟩
        exact ⟨v, by simp [dictGet, hq, hv]⟩

theorem dictGet_map_overwrite (d : List (String × String)) (key v k : String) :
    dictGet k (d.map (fun q => if q.1 = key then (q.1, v) else q))
      = if key = k then (dictGet k d).map (fun _ => v) else dictGet k d := by
  induction d with
  | nil => by_cases h : key = k <;> simp [dictGet, h]
  | cons q t ih =>
    by_cases h1 : q.1 = key <;> by_cases h2 : q.1 = k
    · have hk : key = k := h1 ▸ h2
      simp [dictGet, h1, h2, hk]
    · have hk : ¬ key = k := fun hkk => h2 (h1.trans hkk)
      simp [dictGet, h1, h2, hk, ih]
    · have h1' : ¬ k = key := h2 ▸ h1
      have hk : ¬ key = k := fun hkk => h1' hkk.symm
      simp [dictGet, h2, h1', hk]
    · simp [dictGet, h1, h2, ih]

theorem dictGet_dictInsert (d : List (String × String)) (p : String × String) (k : String) :
    dictGet k (dictInsert d p) = if p.1 = k then some p.2 else dictGet k d := by
  unfold dictInsert
  by_cases hany : d.any (fun q => decide (q.1 = p.1)) = true
  · rw [if_pos hany, dictGet_map_overwrite]
    by_cases hk : p.1 = k
    · have hmem : ∃ q ∈ d, q.1 = k := by
        rcases List.any_eq_true.mp hany with ⟨q, hq, hdec⟩
        exact ⟨q, hq, hk ▸ (by simpa using hdec)⟩
      rcases dictGet_isSome_of_mem d k hmem with ⟨v, hv⟩
      simp [hk, hv]
    · simp [hk]
  · rw [if_neg hany, dictGet_append]
    have hnone : ∀ q ∈ d, ¬ q.1 = p.1 := by
      intro q hq hqp
      exact hany (List.any_eq_true.mpr ⟨q, hq, by simpa using hqp⟩)
    by_cases hk : p.1 = k
    · rw [dictGet_eq_none d k (fun q hq => hk ▸ hnone q hq)]
      simp [dictGet, hk]
    · simp [dictGet, hk]

theorem dictGet_foldl_dictInsert (ps : List (String × String)) (d : List (String × String))
    (k : String) :
    dictGet k (ps.foldl dictInsert d)
      = (((ps.filter (fun p => decide (p.1 = k))).getLast?.map Prod.snd).or (dictGet k d)) := by
  induction ps using List.reverseRecOn with
  | nil => simp
  | append_singleton ts p ih =>
    rw [List.foldl_append, List.foldl_cons, List.foldl_nil, dictGet_dictInsert,
      List.filter_append]
    by_cases hk : p.1 = k
    · simp [hk, List.getLast?_concat]
    · simp [hk, ih]

theorem infoboxRows_foldl (docid : Int) (ps : List (String × String))
    (init : List (Int × String × String)) :
    ps.foldl (fun rows p => rows ++ [(docid, p.1, p.2)]) init
      = init ++ ps.map (fun p => (docid, p.1, p.2)) := by
  induction ps generalizing init with
  | nil => simp
  | cons p t ih => simp [ih]

theorem applyStartFrom_foldl (start : Int) (files acc : List (List Char)) :
    files.foldl
      (fun acc f =>
        match partNumOpt f with
        | some k => if start ≤ k then acc ++ [f] else acc
        | none => acc) acc
      = acc ++ files.filter (startFromKeep start) := by
  induction files generalizing acc with
  | nil => simp
  | cons f t ih =>
    rcases h : partNumOpt f with _ | k
    · simp [List.foldl_cons, h, ih, List.filter_cons, startFromKeep]
    · by_cases hk : start ≤ k <;>
        simp [List.foldl_cons, h, hk, ih, List.filter_cons, startFromKeep]

theorem applyStartFrom_eq_filter (start : Int) (files : List (List Char)) (h : 1 < start) :
    applyStartFrom start files = files.filter (startFromKeep start) := by
  unfold applyStartFrom
  rw [if_pos h, applyStartFrom_foldl]
  simp

theorem splitDotSpace_ne_nil (s : List Char) : splitDotSpace s ≠ [] := by
  rcases s with _ | ⟨c, _ | ⟨d, rest⟩⟩
  · simp [splitDotSpace]
  · simp [splitDotSpace]
  · by_cases h : c = '.' ∧ d = ' '
    · simp [splitDotSpace, h]
    · rcases hm : splitDotSpace (d :: rest) with _ | ⟨t, ts⟩ <;> simp [splitDotSpace, h, hm]

theorem splitDotSpace_eq_single_aux (n : Nat) : ∀ s : List Char, s.length ≤ n →
    ¬ (dotSpace <:+: s) → splitDotSpace s = [s] := by
  induction n with
  | zero =>
    intro s hl _
    have hs : s = [] := List.eq_nil_of_length_eq_zero (Nat.le_zero.mp hl)
    subst hs; rfl
  | succ n ih =>
    intro s hl hinf
    rcases s with _ | ⟨c, _ | ⟨d, rest⟩⟩
    · rfl
    · rfl
    · have hcd : ¬ (c = '.' ∧ d = ' ') := by
        rintro ⟨rfl, rfl⟩
        exact hinf ⟨[], rest, rfl⟩
      have htail : ¬ (dotSpace <:+: (d :: rest)) := by
        rintro ⟨u, v, huv⟩
        refine hinf ⟨c :: u, v, ?_⟩
        simp only [List.cons_append, List.append_assoc] at huv ⊢
        simp [huv]
      have hlen : (d :: rest).length ≤ n := by
        simp only [List.length_cons] at hl ⊢
        omega
      have heq : splitDotSpace (c :: d :: rest) =
          match splitDotSpace (d :: rest) with
          | [] => [[c]]
          | t :: ts => (c :: t) :: ts := by
        simp [splitDotSpace, hcd]
      rw [heq, ih (d :: rest) hlen htail]

theorem splitDotSpace_of_no_sep (s : List Char) (h : ¬ (dotSpace <:+: s)) :
    splitDotSpace s = [s] :=
  splitDotSpace_eq_single_aux s.length s le_rfl h

theorem utf8Len_append (a b : List Char) : utf8Len (a ++ b) = utf8Len a + utf8Len b := by
  simp [utf8Len]

theorem utf8Len_reverse (l : List Char) : utf8Len l.reverse = utf8Len l := by
  simp [utf8Len, List.sum_reverse]

theorem utf8Len_dropWhile_le (p : Char → Bool) (l : List Char) :
    utf8Len (l.dropWhile p) ≤ utf8Len l := by
  induction l with
  | nil => simp
  | cons c t ih =>
    by_cases h : p c
    · rw [List.dropWhile_cons_of_pos h]
      calc utf8Len (t.dropWhile p) ≤ utf8Len t := ih
        _ ≤ utf8Len (c :: t) := by simp [utf8Len]
    · rw [List.dropWhile_cons_of_neg h]

theorem utf8Len_pyStrip_le (s : List Char) : utf8Len (pyStrip s) ≤ utf8Len s := by
  unfold pyStrip
  calc utf8Len (((s.dropWhile pyIsSpace).reverse.dropWhile pyIsSpace).reverse)
      = utf8Len ((s.dropWhile pyIsSpace).reverse.dropWhile pyIsSpace) := utf8Len_reverse _
    _ ≤ utf8Len (s.dropWhile pyIsSpace).reverse := utf8Len_dropWhile_le _ _
    _ = utf8Len (s.dropWhile pyIsSpace) := utf8Len_reverse _
    _ ≤ utf8Len s := utf8Len_dropWhile_le _ _

theorem dropWhile_eq_self_of_all (p : Char → Bool) (l : List Char)
    (h : ∀ c ∈ l, p c = false) : l.dropWhile p = l := by
  cases l with
  | nil => rfl
  | cons c t =>
    rw [List.dropWhile_cons_of_neg]
    simp [h c (List.mem_cons_self c t)]

theorem pyStrip_wsFree_space (w : List Char) (hne : w ≠ []) (hw : wsFreeL w) :
    pyStrip (w ++ [' ']) = w := by
  unfold pyStrip
  have h1 : (w ++ [' ']).dropWhile pyIsSpace = w ++ [' '] := by
    rcases w with _ | ⟨c, t⟩
    · exact absurd rfl hne
    · rw [List.cons_append, List.dropWhile_cons_of_neg]
      simp [hw c (List.mem_cons_self c t)]
  rw [h1, List.reverse_append, List.reverse_singleton, List.singleton_append,
    List.dropWhile_cons_of_pos (by decide : pyIsSpace ' ' = true),
    dropWhile_eq_self_of_all pyIsSpace w.reverse
      (fun c hc => hw c (List.mem_reverse.mp hc)),
    List.reverse_reverse]

theorem splitEvery_ne_nil (p : Char → Bool) (l : List Char) : splitEvery p l ≠ [] := by
  rcases l with _ | ⟨c, r⟩
  · simp [splitEvery]
  · by_cases h : p c
    · simp [splitEvery, h]
    · rcases hm : splitEvery p r with _ | ⟨t, ts⟩ <;> simp [splitEvery, h, hm]

theorem splitEvery_all_false (p : Char → Bool) (l : List Char) :
    ∀ t ∈ splitEvery p l, ∀ c ∈ t, p c = false := by
  induction l with
  | nil =>
    intro t ht
    simp only [splitEvery, List.mem_singleton] at ht
    subst ht
    simp
  | cons c r ih =>
    intro t ht c' hc'
    by_cases h : p c
    · simp only [splitEvery, if_pos h, List.mem_cons] at ht
      rcases ht with rfl | ht
      · simp at hc'
      · exact ih t ht c' hc'
    · rcases hm : splitEvery p r with _ | ⟨t0, ts⟩
      · exact absurd hm (splitEvery_ne_nil p r)
      · simp only [splitEvery, if_neg h, hm, List.mem_cons] at ht
        rcases ht with rfl | ht
        · rcases List.mem_cons.mp hc' with rfl | hc'
          · simpa using h
          · exact ih t0 (hm ▸ List.mem_cons_self t0 ts) c' hc'
        · exact ih t (hm ▸ List.mem_cons_of_mem t0 ht) c' hc'

theorem pySplitWs_tokens (s : List Char) :
    ∀ t ∈ pySplitWs s, t ≠ [] ∧ wsFreeL t := by
  intro t ht
  unfold pySplitWs at ht
  rcases List.mem_filter.mp ht with ⟨hmem, hbe⟩
  refine ⟨by simpa using hbe, fun c hc => splitEvery_all_false pyIsSpace s t hmem c hc⟩

theorem goodChunk_of_curOk (max_bytes : Nat) (last : List Char) (S : List (List Char))
    (cur : List Char) (h : CurOk max_bytes last S cur) :
    GoodChunkS max_bytes last S (pyStrip cur) := by
  rcases h with hle | ⟨s, hs, rfl⟩ | ⟨w, hne, hw, rfl⟩
  · exact Or.inl (le_trans (utf8Len_pyStrip_le cur) hle)
  · exact Or.inr (Or.inr ⟨s, hs, rfl⟩)
  · rw [pyStrip_wsFree_space w hne hw]
    exact Or.inr (Or.inl hw)

theorem wordStep_invariant (max_bytes : Nat) (last : List Char) (S : List (List Char))
    (st : ChunkSt) (w : List Char) (hst : StOk max_bytes last S st)
    (hne : w ≠ []) (hw : wsFreeL w) :
    StOk max_bytes last S (wordStep max_bytes st w) := by
  obtain ⟨hchunks, hcur⟩ := hst
  unfold wordStep
  by_cases hfit : utf8Len (st.2 ++ w ++ [' ']) ≤ max_bytes
  · rw [if_pos hfit]
    exact ⟨hchunks, Or.inl hfit⟩
  · rw [if_neg hfit]
    by_cases hcne : st.2 ≠ []
    · rw [if_pos hcne]
      refine ⟨?_, Or.inr (Or.inr ⟨w, hne, hw, rfl⟩)⟩
      intro c hc
      rcases List.mem_append.mp hc with hc | hc
      · exact hchunks c hc
      · rw [List.mem_singleton.mp hc]
        exact goodChunk_of_curOk _ _ _ _ hcur
    · rw [if_neg hcne]
      exact ⟨hchunks, Or.inr (Or.inr ⟨w, hne, hw, rfl⟩)⟩

theorem wordFold_invariant (max_bytes : Nat) (last : List Char) (S : List (List Char))
    (ws : List (List Char)) (st : ChunkSt)
    (hws : ∀ w ∈ ws, w ≠ [] ∧ wsFreeL w) (hst : StOk max_bytes last S st) :
    StOk max_bytes last S (ws.foldl (wordStep max_bytes) st) := by
  induction ws generalizing st with
  | nil => simpa using hst
  | cons w t ih =>
    rw [List.foldl_cons]
    exact ih (wordStep max_bytes st w) (fun x hx => hws x (List.mem_cons_of_mem w hx))
      (wordStep_invariant max_bytes last S st w hst
        (hws w (List.mem_cons_self w t)).1 (hws w (List.mem_cons_self w t)).2)

theorem sentenceStep_invariant (max_bytes : Nat) (last : List Char) (S : List (List Char))
    (st : ChunkSt) (s : List Char) (hs : s ∈ S) (hst : StOk max_bytes last S st) :
    StOk max_bytes last S (sentenceStep max_bytes last st s) := by
  obtain ⟨hchunks, hcur⟩ := hst
  unfold sentenceStep sentenceBody
  by_cases hfit : utf8Len (st.2 ++ swpOf last s) ≤ max_bytes
  · rw [if_pos hfit]
    exact ⟨hchunks, Or.inl hfit⟩
  · rw [if_neg hfit]
    by_cases hcne : st.2 ≠ []
    · rw [if_pos hcne]
      refine ⟨?_, Or.inr (Or.inl ⟨s, hs, rfl⟩)⟩
      intro c hc
      rcases List.mem_append.mp hc with hc | hc
      · exact hchunks c hc
      · rw [List.mem_singleton.mp hc]
        exact goodChunk_of_curOk _ _ _ _ hcur
    · rw [if_neg hcne]
      exact wordFold_invariant max_bytes last S (pySplitWs s) st
        (pySplitWs_tokens s) ⟨hchunks, hcur⟩

theorem sentenceFold_invariant (max_bytes : Nat) (last : List Char) (S : List (List Char))
    (l : List (List Char)) (hl : ∀ s ∈ l, s ∈ S) (st : ChunkSt)
    (hst : StOk max_bytes last S st) :
    StOk max_bytes last S (l.foldl (sentenceStep max_bytes last) st) := by
  induction l generalizing st with
  | nil => simpa using hst
  | cons s t ih =>
    rw [List.foldl_cons]
    exact ih (fun x hx => hl x (List.mem_cons_of_mem s hx)) (sentenceStep max_bytes last st s)
      (sentenceStep_invariant max_bytes last S st s (hl s (List.mem_cons_self s t)) hst)

theorem chunkFinish_good (max_bytes : Nat) (last : List Char) (S : List (List Char))
    (res : ChunkSt) (h : StOk max_bytes last S res) :
    ∀ c ∈ chunkFinish res, GoodChunkS max_bytes last S c := by
  intro c hc
  unfold chunkFinish at hc
  by_cases hr : res.2 = []
  · rw [if_pos hr] at hc
    exact h.1 c hc
  · rw [if_neg hr] at hc
    rcases List.mem_append.mp hc with hc | hc
    · exact h.1 c hc
    · rw [List.mem_singleton.mp hc]
      exact goodChunk_of_curOk _ _ _ _ h.2

/-! ## Claims -/

/-- C2 counterexample: at a progress checkpoint with elapsed time exactly
zero, computing `rate = (successful + failed) / elapsed` itself raises a
`ZeroDivisionError`; the ETA is not reported as the sentinel zero. -/
theorem C2_counterexample :
    progressUpdate 50 120 0 = Except.error "ZeroDivisionError" := by
  simp [progressUpdate, pyDiv]

/-- C2 (amended): the zero-rate guard covers only the ETA division.
When elapsed time is positive the checkpoint computation returns a
defined ETA without any division fault, and a zero completion count
(hence a zero rate) yields the sentinel ETA zero; but when elapsed time
is exactly zero the rate computation itself raises a division fault. -/
theorem C2_amended (done total : Nat) (elapsed : ℚ) :
    (elapsed = 0 → progressUpdate done total elapsed = Except.error "ZeroDivisionError")
    ∧ (0 < elapsed → ∃ eta, progressUpdate done total elapsed = Except.ok eta
        ∧ (done = 0 → eta = 0)) := by
  constructor
  · intro h; subst h; simp [progressUpdate, pyDiv]
  · intro h
    have hne : elapsed ≠ 0 := ne_of_gt h
    simp only [progressUpdate, pyDiv, if_neg hne]
    by_cases hr : 0 < (done : ℚ) / elapsed
    · have hrne : (done : ℚ) / elapsed ≠ 0 := ne_of_gt hr
      refine ⟨((total : ℚ) - (done : ℚ)) / ((done : ℚ) / elapsed), ?_, ?_⟩
      · simp [hr, hrne]
      · intro h0
        rw [h0] at hr
        simp at hr
    · exact ⟨0, by simp [hr], fun _ => rfl⟩

/-- C2 witness: the amended claim at concrete checkpoints (7 completions
at elapsed 0 faults; 0 completions at elapsed 1 yields ETA 0). -/
theorem C2_witness :
    progressUpdate 7 20 0 = Except.error "ZeroDivisionError"
    ∧ ∃ eta, progressUpdate 0 20 1 = Except.ok eta ∧ (0 = 0 → eta = 0) :=
  ⟨(C2_amended 7 20 0).1 rfl, (C2_amended 0 20 1).2 (by norm_num)⟩

/-- C3 counterexample: `chunk_text("Hello world. This is a test.", 15)`
does not return `["Hello world. ", "This is a test."]`: the first chunk
is flushed through `strip()`, which removes the delimiter's trailing
space. -/
theorem C3_counterexample :
    chunk_text ("Hello world. This is a test.".toList) 15
      ≠ ["Hello world. ".toList, "This is a test.".toList] := by decide

/-- C3 (amended): `chunk_text("Hello world. This is a test.", 15)`
returns exactly `["Hello world.", "This is a test."]`; the first chunk
carries the reattached period but its trailing space is removed by the
flush's `strip()`. -/
theorem C3_amended :
    chunk_text ("Hello world. This is a test.".toList) 15
      = ["Hello world.".toList, "This is a test.".toList] := by decide

/-- C5 counterexample: a file whose name suffix does not parse to an
integer receives the default sort key `0` and is placed FIRST by the
ordering (before `wikipedia_en_part_001`), not last. -/
theorem C5_counterexample :
    sortParquetFiles
        ["wikipedia_en_part_001.parquet".toList, "wikipedia_en_part_final.parquet".toList]
      = ["wikipedia_en_part_final.parquet".toList, "wikipedia_en_part_001.parquet".toList]
    ∧ (sortParquetFiles
        ["wikipedia_en_part_001.parquet".toList, "wikipedia_en_part_final.parquet".toList]).getLastD []
      ≠ "wikipedia_en_part_final.parquet".toList := by decide

/-- C5 (amended): input files are ordered by the parsed part number, and
a file whose suffix does not parse is assigned the default key `0`
without a fatal error, which places it at or before any file with a
positive part number (first, not last); the sorted output is ascending
in the part-number key. -/
theorem C5_amended (f : List Char) (h : partNumOpt f = none) (g : List Char)
    (hg : 1 ≤ extract_part_number g) (files : List (List Char)) :
    extract_part_number f = 0 ∧ keyLE f g ∧ List.Sorted keyLE (sortParquetFiles files) := by
  have h0 : extract_part_number f = 0 := by simp [extract_part_number, h]
  refine ⟨h0, ?_, List.sorted_insertionSort keyLE files⟩
  unfold keyLE
  rw [h0]
  omega

/-- C5 witness: the amended claim at a concrete unparseable name against
part 001. -/
theorem C5_witness :
    partNumOpt ("wikipedia_en_part_final.parquet".toList) = none
    ∧ extract_part_number ("wikipedia_en_part_final.parquet".toList) = 0
    ∧ keyLE ("wikipedia_en_part_final.parquet".toList) ("wikipedia_en_part_001.parquet".toList)
    ∧ List.Sorted keyLE (sortParquetFiles ["wikipedia_en_part_001.parquet".toList]) := by
  have h := C5_amended ("wikipedia_en_part_final.parquet".toList) (by decide)
    ("wikipedia_en_part_001.parquet".toList) (by decide)
    ["wikipedia_en_part_001.parquet".toList]
  exact ⟨by decide, h.1, h.2.1, h.2.2⟩

/-- C7 counterexample: for the record with params
`name=Alice, born=1990, name=Bob`, the printed mapping resolves to
`Bob`, but the keyed DuckDB storage of the record appends one row per
occurrence and still contains the earlier `name=Alice` row: last-write-wins
does not hold for the stored rows. -/
theorem C7_counterexample :
    buildInfoboxDict [("name", "Alice"), ("born", "1990"), ("name", "Bob")]
      = [("name", "Bob"), ("born", "1990")]
    ∧ infoboxRows 1 [("name", "Alice"), ("born", "1990"), ("name", "Bob")]
      = [(1, "name", "Alice"), (1, "born", "1990"), (1, "name", "Bob")]
    ∧ ¬ (∀ r ∈ infoboxRows 1 [("name", "Alice"), ("born", "1990"), ("name", "Bob")],
          r.2.1 = "name" → r.2.2 = "Bob") := by decide

/-- C7 (amended): duplicate keys are resolved last-write-wins in the
in-memory mapping printed by `process_article` (the value finally
associated with a key is that of its last occurrence), but the keyed
DuckDB storage written by `extract_infobox` appends one row per
parameter occurrence and retains every earlier duplicate. -/
theorem C7_amended (docid : Int) (params : List (String × String)) (k : String) :
    dictGet k (buildInfoboxDict params)
      = ((params.filter (fun p => decide (p.1 = k))).getLast?.map Prod.snd)
    ∧ infoboxRows docid params = params.map (fun p => (docid, p.1, p.2)) := by
  constructor
  · have := dictGet_foldl_dictInsert params [] k
    simpa [buildInfoboxDict, dictGet] using this
  · simpa [infoboxRows] using infoboxRows_foldl docid params []

/-- C8: every submitted job unit yields exactly one outcome triple naming
its own file; faults and timeouts become `(file, false, message)` results;
and the success and failure counters always sum to the number of
dispatched units. -/
theorem C8_outcomes (units : List (String × ExecOutcome)) :
    (units.map (fun u => run_chunk_extractor u.1 u.2)).length = units.length
    ∧ (tallyOutcomes (units.map (fun u => run_chunk_extractor u.1 u.2))).1
        + (tallyOutcomes (units.map (fun u => run_chunk_extractor u.1 u.2))).2 = units.length
    ∧ (∀ u ∈ units, (run_chunk_extractor u.1 u.2).1 = u.1)
    ∧ (∀ f msg, run_chunk_extractor f (ExecOutcome.raised msg) = (f, false, msg))
    ∧ (∀ f, run_chunk_extractor f ExecOutcome.timedOut = (f, false, "Timeout after 5 minutes")) := by
  refine ⟨by simp, ?_, ?_, fun f msg => rfl, fun f => rfl⟩
  · have := tally_foldl (units.map (fun u => run_chunk_extractor u.1 u.2)) 0 0
    simpa [tallyOutcomes] using this
  · rintro ⟨f, o⟩ _
    cases o with
    | exited code stderr =>
      simp only [run_chunk_extractor]
      split <;> rfl
    | timedOut => rfl
    | raised msg => rfl

/-- C8 witness: the per-unit outcome guarantees at a concrete two-unit
batch (one success, one raised fault). -/
theorem C8_witness :
    (run_chunk_extractor "b.parquet" (ExecOutcome.raised "boom")).1 = "b.parquet"
    ∧ (tallyOutcomes (([("a.parquet", ExecOutcome.exited 0 ""),
          ("b.parquet", ExecOutcome.raised "boom")] : List (String × ExecOutcome)).map
          (fun u => run_chunk_extractor u.1 u.2))).1
      + (tallyOutcomes (([("a.parquet", ExecOutcome.exited 0 ""),
          ("b.parquet", ExecOutcome.raised "boom")] : List (String × ExecOutcome)).map
          (fun u => run_chunk_extractor u.1 u.2))).2 = 2 := by
  constructor
  · exact (C8_outcomes [("a.parquet", ExecOutcome.exited 0 ""),
      ("b.parquet", ExecOutcome.raised "boom")]).2.2.1
      ("b.parquet", ExecOutcome.raised "boom") (by decide)
  · exact (C8_outcomes [("a.parquet", ExecOutcome.exited 0 ""),
      ("b.parquet", ExecOutcome.raised "boom")]).2.1

/-- C6: the orchestrator first applies the `start_from` filter (keeping
exactly the units whose parsed part number is at least the threshold) and
then truncates to at most `max_files` units, so the dispatched list is
`take max_files` of the filtered list; the keep-condition on a parseable
unit is exactly `start_from ≤ part number`; and ascending part-number
order is preserved. -/
theorem C6_dispatch (files : List (List Char)) (start n : Int)
    (hs : 1 < start) (hn : 0 < n) :
    dispatchFiles start (some n) files = (files.filter (startFromKeep start)).take n.toNat
    ∧ (∀ f k, partNumOpt f = some k → (startFromKeep start f = true ↔ start ≤ k))
    ∧ (List.Sorted keyLE files → List.Sorted keyLE (dispatchFiles start (some n) files)) := by
  have hd : dispatchFiles start (some n) files
      = (files.filter (startFromKeep start)).take n.toNat := by
    simp only [dispatchFiles, applyMaxFiles]
    rw [applyStartFrom_eq_filter start files hs]
    rw [if_neg (show ¬ n = 0 by omega), if_neg (show ¬ n < 0 by omega)]
  refine ⟨hd, ?_, ?_⟩
  · intro f k hfk
    simp [startFromKeep, hfk]
  · intro hsorted
    rw [hd]
    exact (hsorted.filter _).sublist (List.take_sublist _ _)

/-- C6 witness: with discovered parts 1, 50, 51, 52, `start_from = 50`
keeps exactly parts 50-52 and `max_files = 2` then caps the dispatched
list at parts 50 and 51, in ascending order. -/
theorem C6_witness :
    (1 : Int) < 50 ∧ (0 : Int) < 2
    ∧ dispatchFiles 50 (some 2)
        ["wikipedia_en_part_001.parquet".toList, "wikipedia_en_part_050.parquet".toList,
          "wikipedia_en_part_051.parquet".toList, "wikipedia_en_part_052.parquet".toList]
      = ((["wikipedia_en_part_001.parquet".toList, "wikipedia_en_part_050.parquet".toList,
          "wikipedia_en_part_051.parquet".toList, "wikipedia_en_part_052.parquet".toList]).filter
          (startFromKeep 50)).take (2 : Int).toNat
    ∧ dispatchFiles 50 (some 2)
        ["wikipedia_en_part_001.parquet".toList, "wikipedia_en_part_050.parquet".toList,
          "wikipedia_en_part_051.parquet".toList, "wikipedia_en_part_052.parquet".toList]
      = ["wikipedia_en_part_050.parquet".toList, "wikipedia_en_part_051.parquet".toList] := by
  refine ⟨by norm_num, by norm_num, ?_, by decide⟩
  exact (C6_dispatch
    ["wikipedia_en_part_001.parquet".toList, "wikipedia_en_part_050.parquet".toList,
      "wikipedia_en_part_051.parquet".toList, "wikipedia_en_part_052.parquet".toList]
    50 2 (by norm_num) (by norm_num)).1

/-- C9: when the text's encoded length exceeds `max_bytes`, the text
contains no `". "` delimiter, and whitespace splitting yields zero words
(whitespace-only text), `chunk_text` returns the empty list — callers
cannot assume at least one chunk per non-empty input. -/
theorem C9_empty (text : List Char) (max_bytes : Nat)
    (h1 : max_bytes < utf8Len text) (h2 : ¬ (dotSpace <:+: text))
    (h3 : pySplitWs text = []) :
    chunk_text text max_bytes = [] := by
  unfold chunk_text
  rw [if_neg (by omega), splitDotSpace_of_no_sep text h2]
  simp [sentenceStep, swpOf, sentenceBody, chunkFinish, h3,
    show ¬ utf8Len text ≤ max_bytes by omega]

/-- C9 witness: three spaces with `max_bytes = 1` produce no chunks. -/
theorem C9_witness :
    1 < utf8Len ("   ".toList) ∧ ¬ (dotSpace <:+: "   ".toList)
    ∧ pySplitWs ("   ".toList) = [] ∧ chunk_text ("   ".toList) 1 = [] :=
  ⟨by decide, by decide, by decide, C9_empty ("   ".toList) 1 (by decide) (by decide) (by decide)⟩

/-- C10: the `start_from` filter is a no-op when `start_from ≤ 1` (the
default), so files with unparseable part numbers stay in the dispatched
set; when `start_from > 1` the filter is applied and its keep-condition
is false for every file whose part number does not parse, silently
dropping such files. -/
theorem C10_startFrom (files : List (List Char)) (s : Int) :
    (s ≤ 1 → applyStartFrom s files = files)
    ∧ (1 < s → applyStartFrom s files = files.filter (startFromKeep s))
    ∧ (∀ f, partNumOpt f = none → startFromKeep s f = false) := by
  refine ⟨?_, fun h => applyStartFrom_eq_filter s files h, ?_⟩
  · intro h
    unfold applyStartFrom
    rw [if_neg (by omega)]
  · intro f hf
    simp [startFromKeep, hf]

/-- C10 witness: an unparseable file survives the default
`start_from = 1` but is silently dropped at `start_from = 5`. -/
theorem C10_witness :
    applyStartFrom 1 ["wikipedia_en_part_xyz.parquet".toList]
      = ["wikipedia_en_part_xyz.parquet".toList]
    ∧ applyStartFrom 5 ["wikipedia_en_part_xyz.parquet".toList] = []
    ∧ startFromKeep 5 ("wikipedia_en_part_xyz.parquet".toList) = false := by
  refine ⟨(C10_startFrom ["wikipedia_en_part_xyz.parquet".toList] 1).1 (by norm_num), ?_,
    (C10_startFrom [] 5).2.2 ("wikipedia_en_part_xyz.parquet".toList) (by decide)⟩
  rw [(C10_startFrom ["wikipedia_en_part_xyz.parquet".toList] 5).2.1 (by norm_num)]
  decide

/-- C4 counterexample: the source reattaches the delimiter based on VALUE
comparison with the last sentence (`sentence != sentences[-1]`), not on
position.  On `"a. b. a"` (whose first sentence equals the last) the
output differs from the positional rule the claim states. -/
theorem C4_counterexample :
    chunk_text ("a. b. a".toList) 6 = ["ab. a".toList]
    ∧ chunk_text_posDelim ("a. b. a".toList) 6 = ["a. b.".toList, "a".toList]
    ∧ chunk_text ("a. b. a".toList) 6 ≠ chunk_text_posDelim ("a. b. a".toList) 6 := by
  decide

/-- C4 (amended): the delimiter is reattached to every sentence whose
text differs from the last sentence's text; this coincides with the
positional rule exactly when no earlier sentence candidate equals the
last one. -/
theorem C4_amended (text : List Char) (max_bytes : Nat)
    (h : ∀ s ∈ (splitDotSpace text).dropLast, s ≠ (splitDotSpace text).getLastD []) :
    chunk_text text max_bytes = chunk_text_posDelim text max_bytes := by
  unfold chunk_text chunk_text_posDelim
  by_cases htop : utf8Len text ≤ max_bytes
  · simp [htop]
  · simp only [if_neg htop]
    set S := splitDotSpace text with hS
    have hne : S ≠ [] := splitDotSpace_ne_nil text
    have hlast : S.getLastD [] = S.getLast hne := by
      rw [List.getLastD_eq_getLast?, List.getLast?_eq_getLast S hne]
      rfl
    have hfold : S.foldl (sentenceStep max_bytes (S.getLastD [])) ([], [])
        = (S.dropLast.map (fun s => (s, true)) ++ [(S.getLastD [], false)]).foldl
            (fun st p => sentenceBody max_bytes st p.1 (if p.2 then p.1 ++ dotSpace else p.1))
            ([], []) := by
      rw [List.foldl_append]
      have hmap :
          (S.dropLast.map (fun s => (s, true))).foldl
            (fun st p => sentenceBody max_bytes st p.1 (if p.2 then p.1 ++ dotSpace else p.1))
            (([], []) : ChunkSt)
          = S.dropLast.foldl (sentenceStep max_bytes (S.getLastD [])) (([], []) : ChunkSt) := by
        rw [List.foldl_map]
        refine List.foldl_ext _ _ ([], []) (fun st s hs => ?_)
        simp only [if_true]
        unfold sentenceStep swpOf
        rw [if_pos (h s hs)]
      rw [hmap]
      conv_lhs => rw [← List.dropLast_append_getLast hne, List.foldl_append]
      simp only [List.foldl_cons, List.foldl_nil]
      rw [← hlast]
      unfold sentenceStep swpOf
      simp
    rw [hfold]

/-- C4 witness: on `"x. y"` (distinct sentences) the source's
value-comparison rule and the positional rule agree. -/
theorem C4_witness :
    (∀ s ∈ (splitDotSpace ("x. y".toList)).dropLast,
        s ≠ (splitDotSpace ("x. y".toList)).getLastD [])
    ∧ chunk_text ("x. y".toList) 3 = chunk_text_posDelim ("x. y".toList) 3 :=
  ⟨by decide, C4_amended ("x. y".toList) 3 (by decide)⟩

/-- C1 counterexample: with `chunk_text("Hi. aaaa bbbb", 5)` the second
output chunk `"aaaa bbbb"` exceeds the 5-byte limit and contains
whitespace (it is a whole multi-word sentence, not a single whitespace-free
token), so over-limit chunks are NOT restricted to single tokens. -/
theorem C1_counterexample :
    chunk_text ("Hi. aaaa bbbb".toList) 5 = ["Hi.".toList, "aaaa bbbb".toList]
    ∧ 5 < utf8Len ("aaaa bbbb".toList)
    ∧ ¬ wsFreeL ("aaaa bbbb".toList) := by decide

/-- C1 (amended): every element of `chunk_text text max_bytes` has
encoded byte length at most `max_bytes`, OR is whitespace-free (a single
over-long token), OR is the stripped form of one single over-long
sentence candidate — the word-level fallback only triggers when the
buffer was empty, so an over-long sentence arriving at a nonempty buffer
is emitted whole, whitespace included. -/
theorem C1_amended (text : List Char) (max_bytes : Nat) (_hmb : 0 < max_bytes) :
    ∀ c ∈ chunk_text text max_bytes,
      utf8Len c ≤ max_bytes ∨ wsFreeL c ∨ strippedSentence text c := by
  intro c hc
  unfold chunk_text at hc
  by_cases htop : utf8Len text ≤ max_bytes
  · rw [if_pos htop] at hc
    rw [List.mem_singleton.mp hc]
    exact Or.inl htop
  · rw [if_neg htop] at hc
    have hinv : StOk max_bytes ((splitDotSpace text).getLastD []) (splitDotSpace text)
        ((splitDotSpace text).foldl
          (sentenceStep max_bytes ((splitDotSpace text).getLastD [])) ([], [])) :=
      sentenceFold_invariant max_bytes ((splitDotSpace text).getLastD []) (splitDotSpace text)
        (splitDotSpace text) (fun s hs => hs) ([], [])
        ⟨by simp, Or.inl (by simp [utf8Len])⟩
    have hgood := chunkFinish_good max_bytes ((splitDotSpace text).getLastD [])
      (splitDotSpace text) _ hinv c hc
    exact hgood

/-- C1 witness: the amended property at the concrete call
`chunk_text("ab", 5)`, whose single chunk fits the limit. -/
theorem C1_witness :
    0 < 5 ∧ ("ab".toList ∈ chunk_text ("ab".toList) 5)
    ∧ (utf8Len ("ab".toList) ≤ 5 ∨ wsFreeL ("ab".toList)
        ∨ strippedSentence ("ab".toList) ("ab".toList)) :=
  ⟨by decide, by decide, C1_amended ("ab".toList) 5 (by decide) ("ab".toList) (by decide)⟩

end MediawikiSample
